import Mathlib

/-!
Shallow embedding of the Crisis Mapping Toolkit MODIS routines
(`cmt/modis/modis_utilities.py` and `cmt/modis/dnns.py`).

Pixel values, histogram counts and reflectances are modelled as exact
rationals.  Earth Engine raster primitives are modelled per pixel:
`divide` returns 0 on a zero denominator (documented Earth Engine
behaviour), `Not` maps 0 to 1 and every nonzero value to 0,
`clamp lo hi` clamps into `[lo, hi]`, and masking is modelled with an
explicit validity flag.  Python runtime errors (ZeroDivisionError,
TypeError on an unset index, NameError when a `for` loop never ran)
are modelled by `Option.none`.
-/

namespace CMT

/-! ### Per-pixel Earth Engine primitives -/

/-- Earth Engine per-pixel division: division by zero yields 0. -/
def eeDiv (a b : ℚ) : ℚ := if b = 0 then 0 else a / b

/-- Earth Engine `clamp(lo, hi)` applied per pixel. -/
def eeClamp (x lo hi : ℚ) : ℚ := max lo (min x hi)

/-- Earth Engine `Not()` applied per pixel: 1 where the value is 0, else 0. -/
def eeNot (a : ℚ) : ℚ := if a = 0 then 1 else 0

/-! ### Histograms and `compute_binary_threshold` (modis_utilities.py, lines 106-171) -/

/-- A histogram as returned by the Earth Engine histogram reducer:
a bucket origin `bucketMin`, a uniform `bucketWidth`, and one count per
bucket. -/
structure Histo where
  bucketMin : ℚ
  bucketWidth : ℚ
  counts : List ℚ

/-- Total mass of a histogram (`sum(histogram)` in the source, lines 118-119). -/
def total (h : Histo) : ℚ := h.counts.sum

/-- Lower edge of bucket `j`: `bucketMin + j * bucketWidth` (line 140). -/
def lowerEdge (h : Histo) (j : ℕ) : ℚ := h.bucketMin + j * h.bucketWidth

/-- Midpoint of bucket `i`: `bucketMin + i * bucketWidth + bucketWidth/2`,
the value the source reports as a threshold (lines 158-159 and 168). -/
def binMid (h : Histo) (i : ℕ) : ℚ := h.bucketMin + i * h.bucketWidth + h.bucketWidth / 2

/-- The inner `while` loop of `compute_binary_threshold` (lines 139-142):
starting from bucket `fidx` of the false histogram with running mass
`fsum`, subtract the mass of every false bucket whose lower edge lies
strictly below `x` and advance the bucket index.  The structural `fuel`
argument bounds the iteration count; callers pass
`hF.counts.length - fidx`, which the loop can never exceed. -/
def advanceFalse (hF : Histo) (x : ℚ) : ℕ → ℕ → ℚ → ℕ × ℚ
  | 0, fidx, fsum => (fidx, fsum)
  | fuel + 1, fidx, fsum =>
    if fidx < hF.counts.length ∧ lowerEdge hF fidx < x then
      advanceFalse hF x fuel (fidx + 1) (fsum - hF.counts.getD fidx 0)
    else (fidx, fsum)

/-- Single-threshold mode of the scan (lines 130-154 with
`mixed_thresholds=False`): iterate over the buckets of the true
histogram, accumulating `tsum` and shrinking `fsum` via `advanceFalse`;
`break` (returning the current bucket index) at the first bucket where
`percent_false_over < percent_true_under` and `percent_true_under > 0.5`;
if no bucket qualifies the loop falls through and the last bucket index
is returned.  `fuel` counts the buckets that remain; the wrapper calls it
with `fuel = hT.counts.length` and `i = 0`. -/
def singleExit (hT hF : Histo) : ℕ → ℕ → ℕ → ℚ → ℚ → ℕ
  | 0, i, _, _, _ => i
  | fuel + 1, i, fidx, fsum, tsum =>
    let tsum2 := tsum + hT.counts.getD i 0
    let p := advanceFalse hF (lowerEdge hT (i + 1)) (hF.counts.length - fidx) fidx fsum
    if p.2 / total hF < tsum2 / total hT ∧ tsum2 / total hT > 1 / 2 then i
    else if fuel = 0 then i
    else singleExit hT hF fuel (i + 1) p.1 p.2 tsum2

/-- Mixed-threshold mode of the scan (lines 130-151 with
`mixed_thresholds=True`), returning the pair of optional bucket indices
`(lower_mixed_index, upper_mixed_index)`.  The lower index is overwritten
at every bucket where `(false_total - false_sum)/true_sum <= 0.05`; the
upper index is set at the first bucket where
`(true_total - true_sum)/false_sum <= 0.05` (the Python `and`
short-circuits, so once the upper index is set the second division is
never evaluated again).  A zero `true_sum` (line 148) or a zero
`false_sum` reached while the upper index is still unset (line 150)
raises ZeroDivisionError, modelled by `none`. -/
def mixedLoop (hT hF : Histo) : ℕ → ℕ → ℕ → ℚ → ℚ → Option ℕ → Option ℕ →
    Option (Option ℕ × Option ℕ)
  | 0, _, _, _, _, lower, upper => some (lower, upper)
  | fuel + 1, i, fidx, fsum, tsum, lower, upper =>
    let tsum2 := tsum + hT.counts.getD i 0
    let p := advanceFalse hF (lowerEdge hT (i + 1)) (hF.counts.length - fidx) fidx fsum
    if tsum2 = 0 then none
    else
      let lower2 := if (total hF - p.2) / tsum2 ≤ 1 / 20 then some i else lower
      match upper with
      | some u => mixedLoop hT hF fuel (i + 1) p.1 p.2 tsum2 lower2 (some u)
      | none =>
        if p.2 = 0 then none
        else
          mixedLoop hT hF fuel (i + 1) p.1 p.2 tsum2 lower2
            (if (total hT - tsum2) / p.2 ≤ 1 / 20 then some i else none)

/-- `compute_binary_threshold(..., mixed_thresholds=False)` (lines 106-171).
Returns `none` when the Python code raises: a NameError when the true
histogram has no buckets (the loop variable `i` is then unbound at line
168), or a ZeroDivisionError at lines 144-145 when either histogram has
zero total mass. -/
def compute_binary_threshold_single (hT hF : Histo) : Option ℚ :=
  if hT.counts.length = 0 then none
  else if total hT = 0 ∨ total hF = 0 then none
  else some (binMid hT (singleExit hT hF hT.counts.length 0 0 (total hF) 0))

/-- `compute_binary_threshold(..., mixed_thresholds=True)` (lines 106-165).
Returns `none` when the Python code raises: ZeroDivisionError for a zero
histogram total (lines 144-145) or inside the scan (lines 148 and 150),
and TypeError at lines 158-159 when either mixed index was never set
(`None` arithmetic), which also happens when the true histogram has no
buckets. -/
def compute_binary_threshold_mixed (hT hF : Histo) : Option (ℚ × ℚ) :=
  if hT.counts.length = 0 then none
  else if total hT = 0 ∨ total hF = 0 then none
  else
    match mixedLoop hT hF hT.counts.length 0 0 (total hF) 0 none none with
    | some (some li, some ui) =>
      let lower := binMid hT li
      let upper := binMid hT ui
      if lower > upper then some (upper, lower) else some (lower, upper)
    | _ => none

/-! ### Per-bucket specification of the scan state

The claims describe the scan through per-bucket quantities: the
cumulative true mass through bucket `i`, and the false mass lying in
buckets whose lower edge is at or above the upper edge of true bucket
`i`.  These definitions restate those quantities without the loop state;
the correspondence with the stateful scan is proved below. -/

/-- Cumulative true mass through bucket `i` (the value of `true_sum`
after the line-132 update at iteration `i`). -/
def trueSumSpec (hT : Histo) (i : ℕ) : ℚ := (hT.counts.take (i + 1)).sum

/-- Number of false buckets whose lower edge lies strictly below `x`. -/
def falseIdxSpec (hF : Histo) (x : ℚ) : ℕ :=
  (List.range hF.counts.length).countP (fun j => decide (lowerEdge hF j < x))

/-- False mass in buckets whose lower edge is at or above the upper edge
of true bucket `i` (the value of `false_sum` at iteration `i`). -/
def falseSumSpec (hT hF : Histo) (i : ℕ) : ℚ :=
  ∑ j in (Finset.range hF.counts.length).filter
    (fun j => lowerEdge hT (i + 1) ≤ lowerEdge hF j), hF.counts.getD j 0

/-- The single-threshold break condition at bucket `i` (line 153):
`percent_false_over < percent_true_under` and `percent_true_under > 0.5`. -/
def singleCondB (hT hF : Histo) (i : ℕ) : Bool :=
  decide (falseSumSpec hT hF i / total hF < trueSumSpec hT i / total hT) &&
  decide (trueSumSpec hT i / total hT > 1 / 2)

/-- The mixed-mode lower-index condition at bucket `i` (line 148):
`(false_total - false_sum)/true_sum <= 0.05`. -/
def lowerCondB (hT hF : Histo) (i : ℕ) : Bool :=
  decide ((total hF - falseSumSpec hT hF i) / trueSumSpec hT i ≤ 1 / 20)

/-- The mixed-mode upper-index condition at bucket `i` (line 150):
`(true_total - true_sum)/false_sum <= 0.05`, which can only set the index
(rather than raise ZeroDivisionError) when `false_sum` is nonzero. -/
def upperCondB (hT hF : Histo) (i : ℕ) : Bool :=
  decide (falseSumSpec hT hF i ≠ 0) &&
  decide ((total hT - trueSumSpec hT i) / falseSumSpec hT hF i ≤ 1 / 20)

/-! ### Quality-band bit decoding (modis_utilities.py, lines 57-77) -/

/-- The bit pattern built by `getQABits` (lines 60-62): Python
`range(start, end)` covers `start, ..., end-1`, so the pattern has a set
bit at each position in `[start, end)`. -/
def qaPattern (s e : ℕ) : ℕ := ((List.range' s (e - s)).map (fun i => 2 ^ i)).sum

/-- `getQABits(image, start, end, ...)` per pixel (lines 57-65): mask the
value with `qaPattern` and shift right by `start`. -/
def getQABits (v s e : ℕ) : ℕ := (v &&& qaPattern s e) >>> s

/-- `getModisBadPixelMask` per pixel (lines 67-77): cast the `state_1km`
band to uint16, extract `getQABits(qa, 0, 1)` and flag cloud where the
result equals 1 or 2. -/
def getModisBadPixelMask (v : ℕ) : Bool :=
  let q := v % 2 ^ 16
  let cloudBits := getQABits q 0 1
  cloudBits == 1 || cloudBits == 2

/-- Modelled from the spec: the 2-bit MODIS cloud-state field occupying
bits 0 and 1 of `state_1km`, which the source code means to decode
(its comment says `cloud_state` and it tests for the 2-bit value 2).
Decoded with the source's own `getQABits` over the inclusive bit range
0-1, i.e. `start=0`, `end=2`. -/
def cloudState2 (v : ℕ) : ℕ := getQABits (v % 2 ^ 16) 0 2

/-! ### The DNNS water-fraction estimator per pixel (dnns.py, lines 39-151)

All Earth Engine raster operations in `dnns` are per-pixel once the two
region reductions (the global pure-water and pure-land mean triples) are
given.  A pixel is described by its own band values and class
indicators, the list of pixels inside its square search kernel, and the
two global mean triples. -/

/-- One neighbour inside the search kernel: its pure-water indicator and
its three band values. -/
structure Pix where
  pw : ℚ
  b1 : ℚ
  b2 : ℚ
  b6 : ℚ

/-- A three-band reference spectrum (bands 1, 2 and 6). -/
structure Triple where
  t1 : ℚ
  t2 : ℚ
  t6 : ℚ

/-- Everything `dnns` reads at one pixel: the centre band values, the
centre pure-water and pure-land indicators (0 or 1, produced either by
the probability classifier or by the difference method: `dnns_diff`
differs from `dnns` only in how these indicators are made), the kernel
neighbourhood, and the two global class means. -/
structure DnnsInput where
  b1 : ℚ
  b2 : ℚ
  b6 : ℚ
  pureWater : ℚ
  pureLand : ℚ
  nbrs : List Pix
  averageWater : Triple
  averagePureLand : Triple

/-- `pureWaterCount = pureWater.convolve(kernel)` (line 91): the number of
pure-water pixels inside the kernel. -/
def pureWaterCount (inp : DnnsInput) : ℚ := (inp.nbrs.map Pix.pw).sum

/-- One band of `pureWater.multiply(composite_image).convolve(kernel)`
(line 94): kernel sum of the band over pure-water pixels. -/
def waterConvSum (inp : DnnsInput) (sel : Pix → ℚ) : ℚ :=
  (inp.nbrs.map (fun q => q.pw * sel q)).sum

/-- One band of `pureWaterRef` (lines 93-96): the kernel sum times the
indicator of `pureWaterCount >= MIN_PUREWATER_NEARBY` (with
`MIN_PUREWATER_NEARBY = 1`), divided by the count, then the global mean
added wherever the intermediate image is zero (`.Not()`). -/
def pureWaterRefBand (s c glob : ℚ) : ℚ :=
  let r := eeDiv (s * (if 1 ≤ c then 1 else 0)) c
  r + glob * eeNot r

/-- The reference-spectrum blend as the specification words it:
`result = local*mask + global*(1-mask)`, where the mask is the
minimum-support condition `count >= 1` and the local estimate is the
kernel sum divided by the count.  Stated for comparison with
`pureWaterRefBand`, which the source computes differently. -/
def refBlendSpec (s c glob : ℚ) : ℚ :=
  eeDiv s c * (if 1 ≤ c then 1 else 0) + glob * (1 - (if 1 ≤ c then 1 else 0))

/-- The full `pureWaterRef` triple of `dnns` (lines 93-96). -/
def pureWaterRef (inp : DnnsInput) : Triple :=
  ⟨pureWaterRefBand (waterConvSum inp Pix.b1) (pureWaterCount inp) inp.averageWater.t1,
   pureWaterRefBand (waterConvSum inp Pix.b2) (pureWaterCount inp) inp.averageWater.t2,
   pureWaterRefBand (waterConvSum inp Pix.b6) (pureWaterCount inp) inp.averageWater.t6⟩

/-- Whether neighbour `q` satisfies the equation-10 and equation-11
criteria (lines 106-121): its `b1/b6` ratio lies strictly between
`eqTenLeft` and the centre ratio, and symmetrically for `b2/b6`. -/
def nbrMatch (inp : DnnsInput) (q : Pix) : Bool :=
  let oneOverSix := eeDiv inp.b1 inp.b6
  let twoOverSix := eeDiv inp.b2 inp.b6
  let eqTenLeft := oneOverSix - eeDiv (pureWaterRef inp).t1 inp.b6
  let eqElevenLeft := twoOverSix - eeDiv (pureWaterRef inp).t2 inp.b6
  decide (eqTenLeft < eeDiv q.b1 q.b6) && decide (eeDiv q.b1 q.b6 < oneOverSix) &&
  decide (eqElevenLeft < eeDiv q.b2 q.b6) && decide (eeDiv q.b2 q.b6 < twoOverSix)

/-- `numNearbyLandPixels` (line 124): how many neighbours match. -/
def numNearbyLandPixels (inp : DnnsInput) : ℚ :=
  (inp.nbrs.map (fun q => if nbrMatch inp q then (1 : ℚ) else 0)).sum

/-- `meanNearbyBandOne/Two/Six` (lines 125-127): kernel sum of a band over
matching neighbours divided by the number of matches. -/
def meanNearbyBand (inp : DnnsInput) (sel : Pix → ℚ) : ℚ :=
  eeDiv ((inp.nbrs.map (fun q => sel q * (if nbrMatch inp q then (1 : ℚ) else 0))).sum)
    (numNearbyLandPixels inp)

/-- One band of `meanPureLand` (lines 131-133): the nearby mean where at
least `MIN_PURE_NEARBY = 1` neighbours matched, otherwise the global
pure-land mean. -/
def meanPureLandBand (mean glob c : ℚ) : ℚ :=
  mean * (if 1 ≤ c then 1 else 0) + glob * (if c < 1 then 1 else 0)

/-- The full `meanPureLand` triple of `dnns` (lines 124-133). -/
def meanPureLand (inp : DnnsInput) : Triple :=
  ⟨meanPureLandBand (meanNearbyBand inp Pix.b1) inp.averagePureLand.t1 (numNearbyLandPixels inp),
   meanPureLandBand (meanNearbyBand inp Pix.b2) inp.averagePureLand.t2 (numNearbyLandPixels inp),
   meanPureLandBand (meanNearbyBand inp Pix.b6) inp.averagePureLand.t6 (numNearbyLandPixels inp)⟩

/-- The band-6 mixture inversion of `dnns` (line 138):
`(land[b6] - b6) / (land[b6] - water[b6])` clamped to `[0, 1]`. -/
def dnns_water_fraction (inp : DnnsInput) : ℚ :=
  eeClamp (eeDiv ((meanPureLand inp).t6 - inp.b6)
    ((meanPureLand inp).t6 - (pureWaterRef inp).t6)) 0 1

/-- The value `dnns` returns at one pixel (line 141): add the pure-water
indicator, subtract the pure-land indicator, and clamp to `[0, 1]` again. -/
def dnns (inp : DnnsInput) : ℚ :=
  eeClamp (dnns_water_fraction inp + inp.pureWater - inp.pureLand) 0 1

/-! ### The DEM refinement step of `dnns_dem` (dnns.py, lines 222-225) -/

/-- A per-pixel boolean raster value together with its validity flag
(Earth Engine mask). -/
structure MaskedBool where
  valid : Bool
  value : Bool

/-- Earth Engine `Or`: values combine with logical or, masks with and. -/
def eeOr (a b : MaskedBool) : MaskedBool := ⟨a.valid && b.valid, a.value || b.value⟩

/-- `X.mask(m)` for a boolean image: the pixel stays valid only where the
mask value is nonzero. -/
def maskBy (b : Bool) (m : ℚ) : MaskedBool := ⟨decide (m ≠ 0), b⟩

/-- The final classification of `dnns_dem` at one fine DEM pixel (lines
224-225): `dem.lte(average_high).mask(water_fraction)` or-ed with
`water_fraction.eq(1.0)`. -/
def dnns_dem_classify (dem averageHigh waterFraction : ℚ) : MaskedBool :=
  eeOr (maskBy (decide (dem ≤ averageHigh)) waterFraction)
    ⟨true, decide (waterFraction = 1)⟩

/-- A masked pixel is not part of the returned flood mask: a pixel counts
as flooded only where the result is both valid and true. -/
def isFlooded (m : MaskedBool) : Bool := m.valid && m.value

/-! ### List and sum helpers -/

lemma sum_take_succ_getD (l : List ℚ) (i : ℕ) (h : i < l.length) :
    (l.take (i + 1)).sum = (l.take i).sum + l.getD i 0 := by
  rw [List.take_succ, List.sum_append, List.getElem?_eq_getElem h, List.getD_eq_getElem l 0 h]
  simp

lemma sum_drop_getD (l : List ℚ) (i : ℕ) (h : i < l.length) :
    (l.drop i).sum = l.getD i 0 + (l.drop (i + 1)).sum := by
  rw [List.drop_eq_getElem_cons h, List.sum_cons, List.getD_eq_getElem l 0 h]

lemma sum_range_getD (l : List ℚ) : ∀ m, m ≤ l.length →
    ∑ j in Finset.range m, l.getD j 0 = (l.take m).sum := by
  intro m
  induction m with
  | zero => simp
  | succ m ih =>
    intro hm
    have hm2 : m < l.length := Nat.lt_of_lt_of_le (Nat.lt_succ_self m) hm
    rw [Finset.sum_range_succ, ih (Nat.le_of_lt hm2), sum_take_succ_getD l m hm2]

/-- For a predicate that holds on a downward-closed set of naturals, the
count over `range n` characterises membership: `j` is below the count iff
`j < n` and the predicate holds at `j`. -/
lemma countP_range_downclosed (p : ℕ → Bool)
    (hmono : ∀ a b : ℕ, a ≤ b → p b = true → p a = true) :
    ∀ n j, j < (List.range n).countP p ↔ (j < n ∧ p j = true) := by
  intro n
  induction n with
  | zero => simp
  | succ n ih =>
    intro j
    rw [List.range_succ, List.countP_append]
    by_cases hp : p n = true
    · have hall : (List.range n).countP p = n := by
        rw [List.countP_eq_length.2 (fun a ha => hmono a n
          (Nat.le_of_lt (List.mem_range.1 ha)) hp), List.length_range]
      rw [hall]
      simp only [List.countP_cons, List.countP_nil, hp, if_true, Nat.zero_add]
      constructor
      · intro hj
        exact ⟨by omega, hmono j n (by omega) hp⟩
      · intro hj
        omega
    · have hpn : p n = false := Bool.eq_false_iff.2 hp
      simp only [List.countP_cons, List.countP_nil, hpn, Bool.false_eq_true, if_false,
        Nat.zero_add, Nat.add_zero]
      constructor
      · intro hj
        have := (ih j).1 (by omega)
        exact ⟨by omega, this.2⟩
      · intro hj
        rcases Nat.lt_succ_iff_lt_or_eq.1 hj.1 with h2 | h2
        · have := (ih j).2 ⟨h2, hj.2⟩
          omega
        · rw [h2] at hj
          rw [hj.2] at hpn
          cases hpn

/-! ### Correspondence between the stateful scan and the per-bucket spec -/

lemma falseIdxSpec_le (hF : Histo) (x : ℚ) : falseIdxSpec hF x ≤ hF.counts.length := by
  have := ((List.range hF.counts.length).countP_le_length
    (fun j => decide (lowerEdge hF j < x)))
  rwa [List.length_range] at this

lemma lowerEdge_mono (hF : Histo) (hw : 0 ≤ hF.bucketWidth) {a b : ℕ} (hab : a ≤ b) :
    lowerEdge hF a ≤ lowerEdge hF b := by
  unfold lowerEdge
  have : (a : ℚ) ≤ (b : ℚ) := by exact_mod_cast hab
  nlinarith

/-- Membership characterisation of `falseIdxSpec`: with a nonnegative
bucket width the edges are monotone, so the buckets whose lower edge lies
below `x` form exactly the prefix of length `falseIdxSpec hF x`. -/
lemma falseIdxSpec_char (hF : Histo) (x : ℚ) (hw : 0 ≤ hF.bucketWidth) (j : ℕ) :
    j < falseIdxSpec hF x ↔ (j < hF.counts.length ∧ lowerEdge hF j < x) := by
  have h := countP_range_downclosed (fun j => decide (lowerEdge hF j < x))
    (fun a b hab hb => by
      have hb2 : lowerEdge hF b < x := of_decide_eq_true hb
      exact decide_eq_true (lt_of_le_of_lt (lowerEdge_mono hF hw hab) hb2))
    hF.counts.length j
  unfold falseIdxSpec
  rw [h]
  constructor
  · exact fun hc => ⟨hc.1, of_decide_eq_true hc.2⟩
  · exact fun hc => ⟨hc.1, decide_eq_true hc.2⟩

/-- The inner `while` loop lands exactly at the canonical bucket index for
`x`, leaving as running mass the total mass of the remaining suffix. -/
lemma advanceFalse_eq (hF : Histo) (x : ℚ) (hw : 0 < hF.bucketWidth) :
    ∀ fuel fidx, hF.counts.length - fidx ≤ fuel → fidx ≤ hF.counts.length →
    (∀ j < fidx, lowerEdge hF j < x) →
    advanceFalse hF x fuel fidx ((hF.counts.drop fidx).sum) =
      (falseIdxSpec hF x, (hF.counts.drop (falseIdxSpec hF x)).sum) := by
  intro fuel
  induction fuel with
  | zero =>
    intro fidx hfuel hle hedge
    have hfl : fidx = hF.counts.length := by omega
    have hidx : falseIdxSpec hF x = fidx := by
      have h1 : falseIdxSpec hF x ≤ fidx := hfl ▸ falseIdxSpec_le hF x
      have h2 : fidx ≤ falseIdxSpec hF x := by
        by_contra hcon
        have hj := (falseIdxSpec_char hF x (le_of_lt hw) (falseIdxSpec hF x)).2
          ⟨by omega, hedge _ (by omega)⟩
        omega
      omega
    rw [advanceFalse, hidx]
  | succ fuel ih =>
    intro fidx hfuel hle hedge
    rw [advanceFalse]
    by_cases hcond : fidx < hF.counts.length ∧ lowerEdge hF fidx < x
    · rw [if_pos hcond]
      have hstep : (hF.counts.drop fidx).sum - hF.counts.getD fidx 0 =
          (hF.counts.drop (fidx + 1)).sum := by
        rw [sum_drop_getD hF.counts fidx hcond.1]
        ring
      rw [hstep]
      exact ih (fidx + 1) (by omega) hcond.1
        (fun j hj => by
          rcases Nat.lt_succ_iff_lt_or_eq.1 hj with h2 | h2
          · exact hedge j h2
          · rw [h2]; exact hcond.2)
    · rw [if_neg hcond]
      have hidx : falseIdxSpec hF x = fidx := by
        have h1 : fidx ≤ falseIdxSpec hF x := by
          by_contra hcon
          have hj := (falseIdxSpec_char hF x (le_of_lt hw) (falseIdxSpec hF x)).2
            ⟨by omega, hedge _ (by omega)⟩
          omega
        have h2 : falseIdxSpec hF x ≤ fidx := by
          by_contra hcon
          have hj := (falseIdxSpec_char hF x (le_of_lt hw) fidx).1 (by omega)
          exact hcond hj
        omega
      rw [hidx]

/-- The per-bucket false mass "at or above the upper edge of true bucket
`i`" equals the mass of the suffix that the stateful scan keeps. -/
lemma falseSumSpec_eq_drop (hT hF : Histo) (i : ℕ) (hw : 0 < hF.bucketWidth) :
    falseSumSpec hT hF i =
      (hF.counts.drop (falseIdxSpec hF (lowerEdge hT (i + 1)))).sum := by
  set x := lowerEdge hT (i + 1) with hx
  set c := falseIdxSpec hF x with hc
  set n := hF.counts.length with hn
  have hcn : c ≤ n := falseIdxSpec_le hF x
  have hfilter : (Finset.range n).filter (fun j => x ≤ lowerEdge hF j) = Finset.Ico c n := by
    apply Finset.ext
    intro j
    rw [Finset.mem_filter, Finset.mem_range, Finset.mem_Ico]
    constructor
    · intro hj
      refine ⟨?_, hj.1⟩
      by_contra hcon
      have := ((falseIdxSpec_char hF x (le_of_lt hw) j).1 (by omega)).2
      exact absurd hj.2 (not_le.2 this)
    · intro hj
      refine ⟨hj.2, ?_⟩
      by_contra hcon
      have := (falseIdxSpec_char hF x (le_of_lt hw) j).2 ⟨hj.2, not_le.1 hcon⟩
      omega
  unfold falseSumSpec
  rw [← hx, ← hn, hfilter,
    Finset.sum_Ico_eq_sub (fun j => hF.counts.getD j 0) hcn,
    sum_range_getD hF.counts n (le_of_eq hn.symm), sum_range_getD hF.counts c hcn,
    hn, List.take_length]
  have := hF.counts.sum_take_add_sum_drop c
  linarith

/-- The single-threshold scan starting at bucket `i` (with loop state that
matches the per-bucket specification) exits at a bucket `r` that is the
first bucket at or after `i` satisfying the break condition, or the last
bucket when no bucket from `i` on satisfies it. -/
lemma singleExit_spec (hT hF : Histo) (hwT : 0 < hT.bucketWidth) (hwF : 0 < hF.bucketWidth) :
    ∀ fuel i fidx, fuel ≠ 0 → i + fuel = hT.counts.length → fidx ≤ hF.counts.length →
    (∀ j < fidx, lowerEdge hF j < lowerEdge hT (i + 1)) →
    (i ≤ singleExit hT hF fuel i fidx ((hF.counts.drop fidx).sum) ((hT.counts.take i).sum) ∧
      singleExit hT hF fuel i fidx ((hF.counts.drop fidx).sum) ((hT.counts.take i).sum) <
        hT.counts.length ∧
      ((singleCondB hT hF (singleExit hT hF fuel i fidx ((hF.counts.drop fidx).sum)
            ((hT.counts.take i).sum)) = true ∧
          ∀ j, i ≤ j → j < singleExit hT hF fuel i fidx ((hF.counts.drop fidx).sum)
            ((hT.counts.take i).sum) → singleCondB hT hF j = false) ∨
        (singleExit hT hF fuel i fidx ((hF.counts.drop fidx).sum)
            ((hT.counts.take i).sum) = hT.counts.length - 1 ∧
          ∀ j, i ≤ j → j < hT.counts.length → singleCondB hT hF j = false))) := by
  intro fuel
  induction fuel with
  | zero => intro i fidx h0; exact absurd rfl h0
  | succ fuel ih =>
    intro i fidx _ hlen hfle hedge
    have hi : i < hT.counts.length := by omega
    have htsum : (hT.counts.take i).sum + hT.counts.getD i 0 = trueSumSpec hT i := by
      rw [trueSumSpec, sum_take_succ_getD hT.counts i hi]
    have hadv : advanceFalse hF (lowerEdge hT (i + 1)) (hF.counts.length - fidx) fidx
        ((hF.counts.drop fidx).sum) =
        (falseIdxSpec hF (lowerEdge hT (i + 1)),
          (hF.counts.drop (falseIdxSpec hF (lowerEdge hT (i + 1)))).sum) :=
      advanceFalse_eq hF (lowerEdge hT (i + 1)) hwF (hF.counts.length - fidx) fidx
        (le_refl _) hfle hedge
    rw [singleExit]
    simp only [hadv, htsum]
    have hbreak : ((hF.counts.drop (falseIdxSpec hF (lowerEdge hT (i + 1)))).sum / total hF <
          trueSumSpec hT i / total hT ∧ trueSumSpec hT i / total hT > 1 / 2) ↔
        singleCondB hT hF i = true := by
      rw [← falseSumSpec_eq_drop hT hF i hwF, singleCondB]
      simp
    by_cases hcond : singleCondB hT hF i = true
    · rw [if_pos (hbreak.2 hcond)]
      exact ⟨le_refl i, hi, Or.inl ⟨hcond, fun j h1 h2 => by omega⟩⟩
    · have hcondf : singleCondB hT hF i = false := Bool.eq_false_iff.2 hcond
      rw [if_neg (fun hc => hcond (hbreak.1 hc))]
      by_cases hfuel : fuel = 0
      · rw [if_pos hfuel]
        refine ⟨le_refl i, hi, Or.inr ⟨by omega, fun j h1 h2 => ?_⟩⟩
        have : j = i := by omega
        rw [this]; exact hcondf
      · rw [if_neg hfuel]
        have hedge2 : ∀ j < falseIdxSpec hF (lowerEdge hT (i + 1)),
            lowerEdge hF j < lowerEdge hT (i + 1 + 1) := by
          intro j hj
          have h1 := ((falseIdxSpec_char hF (lowerEdge hT (i + 1)) (le_of_lt hwF) j).1 hj).2
          have h2 : lowerEdge hT (i + 1) ≤ lowerEdge hT (i + 2) :=
            lowerEdge_mono hT (le_of_lt hwT) (by omega)
          linarith
        have hrec := ih (i + 1) (falseIdxSpec hF (lowerEdge hT (i + 1))) hfuel (by omega)
          (falseIdxSpec_le hF _) hedge2
        simp only [trueSumSpec]
        refine ⟨by omega, hrec.2.1, ?_⟩
        rcases hrec.2.2 with hcase | hcase
        · exact Or.inl ⟨hcase.1, fun j h1 h2 => by
            rcases Nat.lt_or_ge j (i + 1) with h3 | h3
            · have : j = i := by omega
              rw [this]; exact hcondf
            · exact hcase.2 j h3 h2⟩
        · exact Or.inr ⟨hcase.1, fun j h1 h2 => by
            rcases Nat.lt_or_ge j (i + 1) with h3 | h3
            · have : j = i := by omega
              rw [this]; exact hcondf
            · exact hcase.2 j h3 h2⟩

/-- If the line-148 lower-index condition holds at no bucket from `i` on,
the mixed scan either raises (returns `none`) or finishes with
`lower_mixed_index` still unset. -/
lemma mixedLoop_lower_none (hT hF : Histo) (hwT : 0 < hT.bucketWidth)
    (hwF : 0 < hF.bucketWidth) :
    ∀ fuel i fidx upper, i + fuel = hT.counts.length → fidx ≤ hF.counts.length →
    (∀ j < fidx, lowerEdge hF j < lowerEdge hT (i + 1)) →
    (∀ j, i ≤ j → j < hT.counts.length → lowerCondB hT hF j = false) →
    mixedLoop hT hF fuel i fidx ((hF.counts.drop fidx).sum) ((hT.counts.take i).sum)
      none upper = none ∨
    ∃ up, mixedLoop hT hF fuel i fidx ((hF.counts.drop fidx).sum) ((hT.counts.take i).sum)
      none upper = some (none, up) := by
  intro fuel
  induction fuel with
  | zero =>
    intro i fidx upper _ _ _ _
    rw [mixedLoop]
    exact Or.inr ⟨upper, rfl⟩
  | succ fuel ih =>
    intro i fidx upper hlen hfle hedge hlower
    have hi : i < hT.counts.length := by omega
    have htsum : (hT.counts.take i).sum + hT.counts.getD i 0 = trueSumSpec hT i := by
      rw [trueSumSpec, sum_take_succ_getD hT.counts i hi]
    have hadv : advanceFalse hF (lowerEdge hT (i + 1)) (hF.counts.length - fidx) fidx
        ((hF.counts.drop fidx).sum) =
        (falseIdxSpec hF (lowerEdge hT (i + 1)),
          (hF.counts.drop (falseIdxSpec hF (lowerEdge hT (i + 1)))).sum) :=
      advanceFalse_eq hF (lowerEdge hT (i + 1)) hwF (hF.counts.length - fidx) fidx
        (le_refl _) hfle hedge
    rw [mixedLoop]
    simp only [hadv, htsum]
    by_cases ht0 : trueSumSpec hT i = 0
    · rw [if_pos ht0]
      exact Or.inl rfl
    · rw [if_neg ht0]
      have hlc : ¬((total hF - (hF.counts.drop (falseIdxSpec hF (lowerEdge hT (i + 1)))).sum) /
          trueSumSpec hT i ≤ 1 / 20) := by
        have := hlower i (le_refl i) hi
        rw [lowerCondB, ← falseSumSpec_eq_drop hT hF i hwF] at *
        intro hcon
        rw [decide_eq_true hcon] at this
        cases this
      rw [if_neg hlc]
      have hedge2 : ∀ j < falseIdxSpec hF (lowerEdge hT (i + 1)),
          lowerEdge hF j < lowerEdge hT (i + 1 + 1) := by
        intro j hj
        have h1 := ((falseIdxSpec_char hF (lowerEdge hT (i + 1)) (le_of_lt hwF) j).1 hj).2
        have h2 : lowerEdge hT (i + 1) ≤ lowerEdge hT (i + 2) :=
          lowerEdge_mono hT (le_of_lt hwT) (by omega)
        linarith
      have hlower2 : ∀ j, i + 1 ≤ j → j < hT.counts.length → lowerCondB hT hF j = false :=
        fun j h1 h2 => hlower j (by omega) h2
      have hrec : ∀ upper2, mixedLoop hT hF fuel (i + 1)
          (falseIdxSpec hF (lowerEdge hT (i + 1)))
          ((hF.counts.drop (falseIdxSpec hF (lowerEdge hT (i + 1)))).sum)
          ((hT.counts.take (i + 1)).sum) none upper2 = none ∨
          ∃ up, mixedLoop hT hF fuel (i + 1) (falseIdxSpec hF (lowerEdge hT (i + 1)))
          ((hF.counts.drop (falseIdxSpec hF (lowerEdge hT (i + 1)))).sum)
          ((hT.counts.take (i + 1)).sum) none upper2 = some (none, up) :=
        fun upper2 => ih (i + 1) (falseIdxSpec hF (lowerEdge hT (i + 1))) upper2 (by omega)
          (falseIdxSpec_le hF _) hedge2 hlower2
      simp only [trueSumSpec] at *
      cases upper with
      | some u => exact hrec (some u)
      | none =>
        by_cases hp0 : (hF.counts.drop (falseIdxSpec hF (lowerEdge hT (i + 1)))).sum = 0
        · rw [if_pos hp0]
          exact Or.inl rfl
        · rw [if_neg hp0]
          exact hrec _

/-- If the line-150 upper-index condition holds at no bucket from `i` on,
the mixed scan either raises (returns `none`) or finishes with
`upper_mixed_index` still unset. -/
lemma mixedLoop_upper_none (hT hF : Histo) (hwT : 0 < hT.bucketWidth)
    (hwF : 0 < hF.bucketWidth) :
    ∀ fuel i fidx lower, i + fuel = hT.counts.length → fidx ≤ hF.counts.length →
    (∀ j < fidx, lowerEdge hF j < lowerEdge hT (i + 1)) →
    (∀ j, i ≤ j → j < hT.counts.length → upperCondB hT hF j = false) →
    mixedLoop hT hF fuel i fidx ((hF.counts.drop fidx).sum) ((hT.counts.take i).sum)
      lower none = none ∨
    ∃ lo, mixedLoop hT hF fuel i fidx ((hF.counts.drop fidx).sum) ((hT.counts.take i).sum)
      lower none = some (lo, none) := by
  intro fuel
  induction fuel with
  | zero =>
    intro i fidx lower _ _ _ _
    rw [mixedLoop]
    exact Or.inr ⟨lower, rfl⟩
  | succ fuel ih =>
    intro i fidx lower hlen hfle hedge hupper
    have hi : i < hT.counts.length := by omega
    have htsum : (hT.counts.take i).sum + hT.counts.getD i 0 = trueSumSpec hT i := by
      rw [trueSumSpec, sum_take_succ_getD hT.counts i hi]
    have hadv : advanceFalse hF (lowerEdge hT (i + 1)) (hF.counts.length - fidx) fidx
        ((hF.counts.drop fidx).sum) =
        (falseIdxSpec hF (lowerEdge hT (i + 1)),
          (hF.counts.drop (falseIdxSpec hF (lowerEdge hT (i + 1)))).sum) :=
      advanceFalse_eq hF (lowerEdge hT (i + 1)) hwF (hF.counts.length - fidx) fidx
        (le_refl _) hfle hedge
    rw [mixedLoop]
    simp only [hadv, htsum]
    by_cases ht0 : trueSumSpec hT i = 0
    · rw [if_pos ht0]
      exact Or.inl rfl
    · rw [if_neg ht0]
      by_cases hp0 : (hF.counts.drop (falseIdxSpec hF (lowerEdge hT (i + 1)))).sum = 0
      · rw [if_pos hp0]
        exact Or.inl rfl
      · rw [if_neg hp0]
        have huc : ¬((total hT - trueSumSpec hT i) /
            (hF.counts.drop (falseIdxSpec hF (lowerEdge hT (i + 1)))).sum ≤ 1 / 20) := by
          have h1 := hupper i (le_refl i) hi
          rw [upperCondB, ← falseSumSpec_eq_drop hT hF i hwF] at *
          intro hcon
          rw [decide_eq_true hcon, decide_eq_true hp0] at h1
          cases h1
        rw [if_neg huc]
        have hedge2 : ∀ j < falseIdxSpec hF (lowerEdge hT (i + 1)),
            lowerEdge hF j < lowerEdge hT (i + 1 + 1) := by
          intro j hj
          have h1 := ((falseIdxSpec_char hF (lowerEdge hT (i + 1)) (le_of_lt hwF) j).1 hj).2
          have h2 : lowerEdge hT (i + 1) ≤ lowerEdge hT (i + 2) :=
            lowerEdge_mono hT (le_of_lt hwT) (by omega)
          linarith
        have hrec := ih (i + 1) (falseIdxSpec hF (lowerEdge hT (i + 1)))
          (if (total hF - (hF.counts.drop (falseIdxSpec hF (lowerEdge hT (i + 1)))).sum) /
              trueSumSpec hT i ≤ 1 / 20 then some i else lower)
          (by omega) (falseIdxSpec_le hF _) hedge2
          (fun j h1 h2 => hupper j (by omega) h2)
        simp only [trueSumSpec] at *
        exact hrec

/-- If the running false mass hits zero at bucket `m` while the
upper-index condition has held at no bucket before `m`, the mixed scan
raises ZeroDivisionError at bucket `m` (or earlier), returning `none`. -/
lemma mixedLoop_fsum_zero (hT hF : Histo) (hwT : 0 < hT.bucketWidth)
    (hwF : 0 < hF.bucketWidth) :
    ∀ fuel i fidx lower, i + fuel = hT.counts.length → fidx ≤ hF.counts.length →
    (∀ j < fidx, lowerEdge hF j < lowerEdge hT (i + 1)) →
    ∀ m, i ≤ m → m < hT.counts.length → falseSumSpec hT hF m = 0 →
    (∀ j, i ≤ j → j < m → upperCondB hT hF j = false) →
    mixedLoop hT hF fuel i fidx ((hF.counts.drop fidx).sum) ((hT.counts.take i).sum)
      lower none = none := by
  intro fuel
  induction fuel with
  | zero =>
    intro i fidx lower hlen _ _ m hm1 hm2 _ _
    omega
  | succ fuel ih =>
    intro i fidx lower hlen hfle hedge m hm1 hm2 hmz hupper
    have hi : i < hT.counts.length := by omega
    have htsum : (hT.counts.take i).sum + hT.counts.getD i 0 = trueSumSpec hT i := by
      rw [trueSumSpec, sum_take_succ_getD hT.counts i hi]
    have hadv : advanceFalse hF (lowerEdge hT (i + 1)) (hF.counts.length - fidx) fidx
        ((hF.counts.drop fidx).sum) =
        (falseIdxSpec hF (lowerEdge hT (i + 1)),
          (hF.counts.drop (falseIdxSpec hF (lowerEdge hT (i + 1)))).sum) :=
      advanceFalse_eq hF (lowerEdge hT (i + 1)) hwF (hF.counts.length - fidx) fidx
        (le_refl _) hfle hedge
    rw [mixedLoop]
    simp only [hadv, htsum]
    by_cases ht0 : trueSumSpec hT i = 0
    · rw [if_pos ht0]
    · rw [if_neg ht0]
      by_cases him : i = m
      · have hp0 : (hF.counts.drop (falseIdxSpec hF (lowerEdge hT (i + 1)))).sum = 0 := by
          rw [← falseSumSpec_eq_drop hT hF i hwF, him]
          exact hmz
        rw [if_pos hp0]
      · have him2 : i < m := by omega
        by_cases hp0 : (hF.counts.drop (falseIdxSpec hF (lowerEdge hT (i + 1)))).sum = 0
        · rw [if_pos hp0]
        · rw [if_neg hp0]
          have huc : ¬((total hT - trueSumSpec hT i) /
              (hF.counts.drop (falseIdxSpec hF (lowerEdge hT (i + 1)))).sum ≤ 1 / 20) := by
            have h1 := hupper i (le_refl i) him2
            rw [upperCondB, ← falseSumSpec_eq_drop hT hF i hwF] at *
            intro hcon
            rw [decide_eq_true hcon, decide_eq_true hp0] at h1
            cases h1
          rw [if_neg huc]
          have hedge2 : ∀ j < falseIdxSpec hF (lowerEdge hT (i + 1)),
              lowerEdge hF j < lowerEdge hT (i + 1 + 1) := by
            intro j hj
            have h1 := ((falseIdxSpec_char hF (lowerEdge hT (i + 1)) (le_of_lt hwF) j).1 hj).2
            have h2 : lowerEdge hT (i + 1) ≤ lowerEdge hT (i + 2) :=
              lowerEdge_mono hT (le_of_lt hwT) (by omega)
            linarith
          have hrec := ih (i + 1) (falseIdxSpec hF (lowerEdge hT (i + 1)))
            (if (total hF - (hF.counts.drop (falseIdxSpec hF (lowerEdge hT (i + 1)))).sum) /
                trueSumSpec hT i ≤ 1 / 20 then some i else lower)
            (by omega) (falseIdxSpec_le hF _) hedge2 m (by omega) hm2 hmz
            (fun j h1 h2 => hupper j (by omega) h2)
          simp only [trueSumSpec] at *
          exact hrec

/-! ### Further helpers for the claim theorems -/

lemma eeClamp_nonneg (x : ℚ) : 0 ≤ eeClamp x 0 1 := le_max_left 0 _

lemma eeClamp_le_one (x : ℚ) : eeClamp x 0 1 ≤ 1 := max_le (by norm_num) (min_le_right x 1)

lemma sum_take_zero_of_getD (l : List ℚ) (c : ℕ) (hz : ∀ i2 < c, l.getD i2 0 = 0) :
    (l.take c).sum = 0 := by
  apply List.sum_eq_zero
  intro x hx
  obtain ⟨i2, hlen2, hx2⟩ := List.mem_iff_getElem.1 hx
  have hlen3 : i2 < l.length := by
    rw [List.length_take] at hlen2
    omega
  have hcc : i2 < c := by
    rw [List.length_take] at hlen2
    omega
  rw [List.getElem_take] at hx2
  rw [← hx2, ← List.getD_eq_getElem l 0 hlen3]
  exact hz i2 hcc

lemma sum_drop_zero_of_getD (l : List ℚ) (c : ℕ) (hz : ∀ i2, c ≤ i2 → l.getD i2 0 = 0) :
    (l.drop c).sum = 0 := by
  apply List.sum_eq_zero
  intro x hx
  obtain ⟨i2, hlen2, hx2⟩ := List.mem_iff_getElem.1 hx
  have hlen3 : c + i2 < l.length := by
    rw [List.length_drop] at hlen2
    omega
  rw [List.getElem_drop] at hx2
  rw [← hx2, ← List.getD_eq_getElem l 0 hlen3]
  exact hz (c + i2) (by omega)

lemma sum_take_mono (l : List ℚ) (hnn : ∀ q ∈ l, 0 ≤ q) {a b : ℕ} (hab : a ≤ b) :
    (l.take a).sum ≤ (l.take b).sum := by
  have hb : b = a + (b - a) := by omega
  rw [hb, List.take_add l a (b - a), List.sum_append]
  have : 0 ≤ ((l.drop a).take (b - a)).sum :=
    List.sum_nonneg (fun q hq => hnn q (List.drop_subset a l (List.take_subset _ _ hq)))
  linarith

lemma sum_take_le_total (l : List ℚ) (hnn : ∀ q ∈ l, 0 ≤ q) (m : ℕ) :
    (l.take m).sum ≤ l.sum := by
  have := l.sum_take_add_sum_drop m
  have h2 : 0 ≤ (l.drop m).sum :=
    List.sum_nonneg (fun q hq => hnn q (List.drop_subset m l hq))
  linarith

/-- The single-threshold wrapper together with the scan correspondence:
the returned threshold is the midpoint of the first bucket satisfying the
per-bucket break condition, or of the last bucket when none does. -/
lemma single_scan_spec (hT hF : Histo) (hwT : 0 < hT.bucketWidth) (hwF : 0 < hF.bucketWidth)
    (hne : hT.counts.length ≠ 0) (htt : total hT ≠ 0) (hft : total hF ≠ 0) :
    ∃ k, compute_binary_threshold_single hT hF = some (binMid hT k) ∧ k < hT.counts.length ∧
      ((singleCondB hT hF k = true ∧ ∀ j2 < k, singleCondB hT hF j2 = false) ∨
        (k = hT.counts.length - 1 ∧ ∀ j2 < hT.counts.length, singleCondB hT hF j2 = false)) := by
  have hspec := singleExit_spec hT hF hwT hwF hT.counts.length 0 0 hne (by omega)
    (Nat.zero_le _) (fun j hj => absurd hj (Nat.not_lt_zero j))
  have halign1 : (hF.counts.drop 0).sum = total hF := by rw [List.drop_zero]; rfl
  have halign2 : (hT.counts.take 0).sum = 0 := by rw [List.take_zero, List.sum_nil]
  rw [halign1, halign2] at hspec
  refine ⟨singleExit hT hF hT.counts.length 0 0 (total hF) 0, ?_, hspec.2.1, ?_⟩
  · unfold compute_binary_threshold_single
    rw [if_neg hne, if_neg (not_or.mpr ⟨htt, hft⟩)]
  · rcases hspec.2.2 with hc | hc
    · exact Or.inl ⟨hc.1, fun j2 hj2 => hc.2 j2 (Nat.zero_le j2) hj2⟩
    · exact Or.inr ⟨hc.1, fun j2 hj2 => hc.2 j2 (Nat.zero_le j2) hj2⟩

/-! ### Claim theorems -/

/-- C1: for every input bands mapping and every pixel, the water fraction
returned by `dnns` (and hence `dnns_diff`, which differs only in how the
class indicators are produced) lies in `[0, 1]`: the band-6 mixture
inversion is clamped to `[0, 1]`, and after adding the pure-water
indicator and subtracting the pure-land indicator the result is clamped
to `[0, 1]` again. -/
theorem claim_c1 (inp : DnnsInput) :
    0 ≤ dnns_water_fraction inp ∧ dnns_water_fraction inp ≤ 1 ∧
    0 ≤ dnns inp ∧ dnns inp ≤ 1 :=
  ⟨eeClamp_nonneg _, eeClamp_le_one _, eeClamp_nonneg _, eeClamp_le_one _⟩

/-- C2: a pixel whose pure-water indicator is 1 and pure-land indicator is
0 receives fraction exactly 1 from `dnns`, and symmetrically a pixel whose
pure-land indicator is 1 and pure-water indicator is 0 receives exactly 0;
the pre-pinning fraction always lies in `[0, 1]` (it is clamped), so the
claim's proviso holds automatically. -/
theorem claim_c2 (inp : DnnsInput) :
    (inp.pureWater = 1 → inp.pureLand = 0 → dnns inp = 1) ∧
    (inp.pureLand = 1 → inp.pureWater = 0 → dnns inp = 0) := by
  constructor
  · intro hw hl
    have h0 : 0 ≤ dnns_water_fraction inp := eeClamp_nonneg _
    show eeClamp (dnns_water_fraction inp + inp.pureWater - inp.pureLand) 0 1 = 1
    rw [hw, hl, eeClamp, min_eq_right (by linarith), max_eq_right (by norm_num)]
  · intro hl hw
    have h1 : dnns_water_fraction inp ≤ 1 := eeClamp_le_one _
    show eeClamp (dnns_water_fraction inp + inp.pureWater - inp.pureLand) 0 1 = 0
    rw [hw, hl, eeClamp, min_eq_left (by linarith), max_eq_left (by linarith)]

/-- Witness for C2 at concrete pixels: a pure-water pixel of an otherwise
trivial scene gets fraction 1, a pure-land pixel gets fraction 0. -/
theorem claim_c2_witness :
    dnns ⟨0, 0, 0, 1, 0, [], ⟨0, 0, 0⟩, ⟨0, 0, 0⟩⟩ = 1 ∧
    dnns ⟨0, 0, 0, 0, 1, [], ⟨0, 0, 0⟩, ⟨0, 0, 0⟩⟩ = 0 :=
  ⟨(claim_c2 ⟨0, 0, 0, 1, 0, [], ⟨0, 0, 0⟩, ⟨0, 0, 0⟩⟩).1 rfl rfl,
   (claim_c2 ⟨0, 0, 0, 0, 1, [], ⟨0, 0, 0⟩, ⟨0, 0, 0⟩⟩).2 rfl rfl⟩

/-- C7: in the final classification of `dnns_dem`, a fine DEM pixel whose
coarse cell has water fraction exactly 0 is never marked flooded (the
mask invalidates it), and a pixel whose coarse cell has fraction exactly
1 is marked flooded regardless of its DEM elevation. -/
theorem claim_c7 (dem averageHigh waterFraction : ℚ) :
    (waterFraction = 0 → isFlooded (dnns_dem_classify dem averageHigh waterFraction) = false) ∧
    (waterFraction = 1 → isFlooded (dnns_dem_classify dem averageHigh waterFraction) = true) := by
  constructor
  · intro h
    simp [dnns_dem_classify, isFlooded, eeOr, maskBy, h]
  · intro h
    simp [dnns_dem_classify, isFlooded, eeOr, maskBy, h]

/-- Witness for C7: with fraction 0 a low-lying pixel is still not
flooded; with fraction 1 a pixel above the water surface is flooded. -/
theorem claim_c7_witness :
    isFlooded (dnns_dem_classify 1 3 0) = false ∧
    isFlooded (dnns_dem_classify 10 3 1) = true :=
  ⟨(claim_c7 1 3 0).1 rfl, (claim_c7 10 3 1).2 rfl⟩

/-- C5 (code bug): the source calls `getQABits(qaBand, 0, 1, ...)`, which
extracts only bit 0 because Python `range(start, end)` excludes `end`, so
the extracted value can never equal 2 and the code's own `eq(2)` test is
dead; at quality value 2 the intended 2-bit cloud-state field equals 2
(cloud by the spec) but the code does not flag the pixel. -/
theorem claim_c5 :
    getModisBadPixelMask 2 = false ∧ cloudState2 2 = 2 ∧
    ∀ v : ℕ, getQABits v 0 1 ≠ 2 := by
  refine ⟨by decide, by decide, ?_⟩
  intro v
  have hp : qaPattern 0 1 = 1 := rfl
  rw [getQABits, hp, Nat.shiftRight_zero]
  have h2 : v &&& 1 ≤ 1 := Nat.and_le_right
  omega

/-- C8 counterexample: a pixel with exactly one pure-water neighbour
(meeting the minimum-support threshold) whose reflectance is 0 gets the
global mean (5) from the source, not the local window mean (0) that the
claimed `local*mask + global*(1-mask)` blend prescribes. -/
theorem claim_c8_counterexample :
    (pureWaterRef ⟨0, 0, 0, 0, 0, [⟨1, 0, 0, 0⟩], ⟨5, 5, 5⟩, ⟨0, 0, 0⟩⟩).t1 ≠
      refBlendSpec
        (waterConvSum ⟨0, 0, 0, 0, 0, [⟨1, 0, 0, 0⟩], ⟨5, 5, 5⟩, ⟨0, 0, 0⟩⟩ Pix.b1)
        (pureWaterCount ⟨0, 0, 0, 0, 0, [⟨1, 0, 0, 0⟩], ⟨5, 5, 5⟩, ⟨0, 0, 0⟩⟩)
        (5 : ℚ) := by
  have h1 : (pureWaterRef ⟨0, 0, 0, 0, 0, [⟨1, 0, 0, 0⟩], ⟨5, 5, 5⟩, ⟨0, 0, 0⟩⟩).t1 = 5 := by
    with_unfolding_all rfl
  have h2 : refBlendSpec
      (waterConvSum ⟨0, 0, 0, 0, 0, [⟨1, 0, 0, 0⟩], ⟨5, 5, 5⟩, ⟨0, 0, 0⟩⟩ Pix.b1)
      (pureWaterCount ⟨0, 0, 0, 0, 0, [⟨1, 0, 0, 0⟩], ⟨5, 5, 5⟩, ⟨0, 0, 0⟩⟩)
      (5 : ℚ) = 0 := by
    with_unfolding_all rfl
  rw [h1, h2]
  norm_num

/-- C8 amended: `meanPureLand` does follow the claimed count-masked blend
exactly, but `pureWaterRef` equals the local window mean only where the
support threshold is met AND that local mean is nonzero; wherever the
local mean is zero (in particular wherever support is insufficient, since
the masked intermediate is then zero) the global mean is used instead. -/
theorem claim_c8_amended :
    (∀ s c g : ℚ, pureWaterRefBand s c g =
      if 1 ≤ c ∧ eeDiv s c ≠ 0 then eeDiv s c else g) ∧
    (∀ mean g c : ℚ, meanPureLandBand mean g c = if 1 ≤ c then mean else g) := by
  constructor
  · intro s c g
    unfold pureWaterRefBand eeNot
    by_cases h1 : 1 ≤ c
    · rw [if_pos h1, mul_one]
      by_cases h0 : eeDiv s c = 0
      · simp [h0]
      · simp [h0, h1]
    · rw [if_neg h1, mul_zero]
      have hz : eeDiv 0 c = 0 := by
        unfold eeDiv
        split <;> simp
      simp [hz, h1]
  · intro mean g c
    unfold meanPureLandBand
    by_cases h : 1 ≤ c
    · rw [if_pos h, if_pos h, if_neg (not_lt.2 h), mul_one, mul_zero, add_zero]
    · rw [if_neg h, if_neg h, if_pos (not_le.1 h), mul_zero, mul_one, zero_add]

/-- C3: in single-threshold mode, for histograms with positive bucket
widths, a nonempty true histogram and nonzero masses (the conditions
under which the Python code runs to completion), the scan returns the
midpoint of the first bucket at which `percent_false_over <
percent_true_under` and `percent_true_under > 0.5` — with `true_sum` the
cumulative true mass through the bucket and `false_sum` the false mass in
buckets at or above the bucket's upper edge — and the midpoint of the
last scanned bucket when no bucket qualifies. -/
theorem claim_c3 (hT hF : Histo) (hwT : 0 < hT.bucketWidth) (hwF : 0 < hF.bucketWidth)
    (hne : hT.counts.length ≠ 0) (htt : total hT ≠ 0) (hft : total hF ≠ 0) :
    ∃ k, compute_binary_threshold_single hT hF = some (binMid hT k) ∧
      k < hT.counts.length ∧
      ((singleCondB hT hF k = true ∧ ∀ j2 < k, singleCondB hT hF j2 = false) ∨
        (k = hT.counts.length - 1 ∧ ∀ j2 < hT.counts.length, singleCondB hT hF j2 = false)) :=
  single_scan_spec hT hF hwT hwF hne htt hft

/-- Witness for C3 at a concrete pair of one-bucket histograms. -/
theorem claim_c3_witness :
    ∃ k, compute_binary_threshold_single ⟨0, 1, [1]⟩ ⟨0, 1, [1]⟩ =
      some (binMid ⟨0, 1, [1]⟩ k) ∧
      k < (⟨0, 1, [1]⟩ : Histo).counts.length ∧
      ((singleCondB ⟨0, 1, [1]⟩ ⟨0, 1, [1]⟩ k = true ∧
          ∀ j2 < k, singleCondB ⟨0, 1, [1]⟩ ⟨0, 1, [1]⟩ j2 = false) ∨
        (k = (⟨0, 1, [1]⟩ : Histo).counts.length - 1 ∧
          ∀ j2 < (⟨0, 1, [1]⟩ : Histo).counts.length,
            singleCondB ⟨0, 1, [1]⟩ ⟨0, 1, [1]⟩ j2 = false)) :=
  claim_c3 ⟨0, 1, [1]⟩ ⟨0, 1, [1]⟩ (by norm_num) (by norm_num) (by simp)
    (by norm_num [total]) (by norm_num [total])

/-- C4 counterexample: shared bucketing, all true mass in bucket 0, all
false mass in bucket 2 (every false value strictly above every true
value), yet the returned threshold 5/2 is NOT strictly below the least
possible false value 2 (the lower edge of the first nonempty false
bucket) — it sits inside the first false bucket. -/
theorem claim_c4_counterexample :
    compute_binary_threshold_single ⟨0, 1, [1, 0, 0]⟩ ⟨0, 1, [0, 0, 1]⟩ = some (5 / 2) ∧
    (∀ j2, 0 < j2 → (⟨0, 1, [1, 0, 0]⟩ : Histo).counts.getD j2 0 = 0) ∧
    (∀ j2 < 2, (⟨0, 1, [0, 0, 1]⟩ : Histo).counts.getD j2 0 = 0) ∧
    (⟨0, 1, [0, 0, 1]⟩ : Histo).counts.getD 2 0 ≠ 0 ∧
    ¬((5 / 2 : ℚ) < lowerEdge ⟨0, 1, [0, 0, 1]⟩ 2) := by
  refine ⟨by with_unfolding_all rfl, ?_, ?_, (by norm_num : (1 : ℚ) ≠ 0), ?_⟩
  · intro j2 hj2
    rcases Nat.lt_or_ge j2 3 with h3 | h3
    · interval_cases j2 <;> rfl
    · exact List.getD_eq_default _ _ (by simpa using h3)
  · intro j2 hj2
    interval_cases j2 <;> rfl
  · norm_num [lowerEdge]

/-- C4 amended: with shared bucketing, nonnegative counts, and the true
population (buckets through `k`) lying strictly below the first nonempty
false bucket `j`, the single-mode threshold is exactly the midpoint of
bucket `j`: strictly above the upper edge of the last nonempty true
bucket, but only strictly below the upper edge of the first nonempty
false bucket — half a bucket above the least possible false value, not
strictly below it as the claim stated. -/
theorem claim_c4_amended (hT hF : Histo) (j k : ℕ)
    (hmin : hF.bucketMin = hT.bucketMin) (hwid : hF.bucketWidth = hT.bucketWidth)
    (hlen : hF.counts.length = hT.counts.length)
    (hw : 0 < hT.bucketWidth) (htt : total hT ≠ 0) (hft : total hF ≠ 0)
    (htn : ∀ q ∈ hT.counts, 0 ≤ q) (hfn : ∀ q ∈ hF.counts, 0 ≤ q)
    (hj : j < hF.counts.length) (hjpos : hF.counts.getD j 0 ≠ 0)
    (hjfirst : ∀ j2 < j, hF.counts.getD j2 0 = 0)
    (hk : ∀ i2, k < i2 → hT.counts.getD i2 0 = 0)
    (hkj : k < j) :
    compute_binary_threshold_single hT hF = some (binMid hT j) ∧
    lowerEdge hT (k + 1) < binMid hT j ∧
    binMid hT j < lowerEdge hF j + hF.bucketWidth := by
  have hwF : 0 < hF.bucketWidth := by rw [hwid]; exact hw
  have hne : hT.counts.length ≠ 0 := by omega
  have htpos : 0 < total hT :=
    lt_of_le_of_ne (List.sum_nonneg htn) (Ne.symm htt)
  have hfpos : 0 < total hF :=
    lt_of_le_of_ne (List.sum_nonneg hfn) (Ne.symm hft)
  have hedgeiff : ∀ i2 i3 : ℕ, lowerEdge hF i2 < lowerEdge hT i3 ↔ i2 < i3 := by
    intro i2 i3
    unfold lowerEdge
    rw [hmin, hwid]
    constructor
    · intro hlt
      by_contra hcon
      have hc2 : (i3 : ℚ) ≤ (i2 : ℚ) := by exact_mod_cast (by omega : i3 ≤ i2)
      nlinarith
    · intro hlt
      have hc2 : (i2 : ℚ) < (i3 : ℚ) := by exact_mod_cast hlt
      nlinarith
  have htsj : trueSumSpec hT j = total hT := by
    have hdz : (hT.counts.drop (j + 1)).sum = 0 :=
      sum_drop_zero_of_getD _ _ (fun i2 h2 => hk i2 (by omega))
    have hsplit := hT.counts.sum_take_add_sum_drop (j + 1)
    unfold trueSumSpec total
    linarith
  have hfs_lt : ∀ i < j, falseSumSpec hT hF i = total hF := by
    intro i hi
    rw [falseSumSpec_eq_drop hT hF i hwF]
    have hcz : (hF.counts.take (falseIdxSpec hF (lowerEdge hT (i + 1)))).sum = 0 := by
      apply sum_take_zero_of_getD
      intro i2 h2
      have hchar := (falseIdxSpec_char hF (lowerEdge hT (i + 1)) (le_of_lt hwF) i2).1 h2
      have hlt : i2 < i + 1 := (hedgeiff i2 (i + 1)).1 hchar.2
      exact hjfirst i2 (by omega)
    have hsplit := hF.counts.sum_take_add_sum_drop (falseIdxSpec hF (lowerEdge hT (i + 1)))
    unfold total
    linarith
  have hcond_lt : ∀ i < j, singleCondB hT hF i = false := by
    intro i hi
    unfold singleCondB
    rw [hfs_lt i hi, div_self (ne_of_gt hfpos)]
    have h2 : trueSumSpec hT i / total hT ≤ 1 := by
      rw [div_le_one htpos]
      exact sum_take_le_total hT.counts htn (i + 1)
    rw [decide_eq_false (not_lt.2 h2)]
    rfl
  have hgdnn : 0 ≤ hF.counts.getD j 0 := by
    rw [List.getD_eq_getElem hF.counts 0 hj]
    exact hfn _ (List.getElem_mem hj)
  have hgdpos : 0 < hF.counts.getD j 0 := lt_of_le_of_ne hgdnn (Ne.symm hjpos)
  have hcondj : singleCondB hT hF j = true := by
    unfold singleCondB
    rw [htsj, div_self (ne_of_gt htpos)]
    have hfs : falseSumSpec hT hF j < total hF := by
      rw [falseSumSpec_eq_drop hT hF j hwF]
      have hjc : j < falseIdxSpec hF (lowerEdge hT (j + 1)) :=
        (falseIdxSpec_char hF (lowerEdge hT (j + 1)) (le_of_lt hwF) j).2
          ⟨hj, (hedgeiff j (j + 1)).2 (by omega)⟩
      have htake1 : (hF.counts.take (j + 1)).sum = hF.counts.getD j 0 := by
        rw [sum_take_succ_getD hF.counts j hj, sum_take_zero_of_getD hF.counts j hjfirst,
          zero_add]
      have hmono := sum_take_mono hF.counts hfn (by omega : j + 1 ≤
        falseIdxSpec hF (lowerEdge hT (j + 1)))
      have hsplit := hF.counts.sum_take_add_sum_drop
        (falseIdxSpec hF (lowerEdge hT (j + 1)))
      unfold total
      rw [htake1] at hmono
      linarith
    rw [decide_eq_true ((div_lt_one hfpos).2 hfs),
      decide_eq_true (by norm_num : (1 : ℚ) > 1 / 2)]
    rfl
  obtain ⟨r, hres, hrlt, hcase⟩ := single_scan_spec hT hF hw hwF hne htt hft
  have hrj : r = j := by
    rcases hcase with ⟨hct, hfirst⟩ | ⟨hlast, hall⟩
    · rcases Nat.lt_trichotomy r j with hlt | heq | hgt
      · rw [hcond_lt r hlt] at hct
        cases hct
      · exact heq
      · have := hfirst j hgt
        rw [hcondj] at this
        cases this
    · have := hall j (by omega)
      rw [hcondj] at this
      cases this
  rw [hrj] at hres
  refine ⟨hres, ?_, ?_⟩
  · unfold lowerEdge binMid
    have hc2 : ((k : ℚ) + 1) ≤ (j : ℚ) := by exact_mod_cast (by omega : k + 1 ≤ j)
    push_cast
    nlinarith
  · unfold lowerEdge binMid
    rw [hmin, hwid]
    nlinarith

/-- Witness for the amended C4 at concrete non-overlapping histograms:
true mass in bucket 0, false mass in buckets 2 and 3; the threshold is
the midpoint 5/2 of bucket 2, above the true population and below the
upper edge 3 of the first nonempty false bucket. -/
theorem claim_c4_witness :
    compute_binary_threshold_single ⟨0, 1, [2, 0, 0, 0]⟩ ⟨0, 1, [0, 0, 1, 1]⟩ =
      some (binMid ⟨0, 1, [2, 0, 0, 0]⟩ 2) ∧
    lowerEdge ⟨0, 1, [2, 0, 0, 0]⟩ 1 < binMid ⟨0, 1, [2, 0, 0, 0]⟩ 2 ∧
    binMid ⟨0, 1, [2, 0, 0, 0]⟩ 2 <
      lowerEdge ⟨0, 1, [0, 0, 1, 1]⟩ 2 + (⟨0, 1, [0, 0, 1, 1]⟩ : Histo).bucketWidth :=
  claim_c4_amended ⟨0, 1, [2, 0, 0, 0]⟩ ⟨0, 1, [0, 0, 1, 1]⟩ 2 0 rfl rfl rfl
    (by norm_num) (by norm_num [total]) (by norm_num [total])
    (by intro q hq; fin_cases hq <;> norm_num)
    (by intro q hq; fin_cases hq <;> norm_num)
    (by simp) ((by norm_num : (1 : ℚ) ≠ 0))
    (by intro j2 hj2; interval_cases j2 <;> rfl)
    (by
      intro i2 hi2
      rcases Nat.lt_or_ge i2 4 with h4 | h4
      · interval_cases i2 <;> rfl
      · exact List.getD_eq_default _ _ (by simpa using h4))
    (by norm_num)

/-- C6: in mixed-threshold mode, if the lower-index condition or the
upper-index condition (stated per bucket over the scan's running sums)
is never met, `compute_binary_threshold` raises instead of returning a
threshold pair — either a ZeroDivisionError during the scan or a
TypeError when the unset index is used unguarded in the midpoint
arithmetic at lines 158-159. -/
theorem claim_c6 (hT hF : Histo) (hwT : 0 < hT.bucketWidth) (hwF : 0 < hF.bucketWidth)
    (h : (∀ i < hT.counts.length, lowerCondB hT hF i = false) ∨
      (∀ i < hT.counts.length, upperCondB hT hF i = false)) :
    compute_binary_threshold_mixed hT hF = none := by
  unfold compute_binary_threshold_mixed
  by_cases h0 : hT.counts.length = 0
  · rw [if_pos h0]
  · rw [if_neg h0]
    by_cases h1 : total hT = 0 ∨ total hF = 0
    · rw [if_pos h1]
    · rw [if_neg h1]
      have halign1 : (hF.counts.drop 0).sum = total hF := by rw [List.drop_zero]; rfl
      have halign2 : (hT.counts.take 0).sum = 0 := by rw [List.take_zero, List.sum_nil]
      rcases h with hc | hc
      · have hm := mixedLoop_lower_none hT hF hwT hwF hT.counts.length 0 0 none (by omega)
          (Nat.zero_le _) (fun j2 hj2 => absurd hj2 (Nat.not_lt_zero j2))
          (fun j2 _ hj2 => hc j2 hj2)
        rw [halign1, halign2] at hm
        rcases hm with hm | ⟨up, hm⟩
        · rw [hm]
        · rw [hm]
      · have hm := mixedLoop_upper_none hT hF hwT hwF hT.counts.length 0 0 none (by omega)
          (Nat.zero_le _) (fun j2 hj2 => absurd hj2 (Nat.not_lt_zero j2))
          (fun j2 _ hj2 => hc j2 hj2)
        rw [halign1, halign2] at hm
        rcases hm with hm | ⟨lo, hm⟩
        · rw [hm]
        · cases lo with
          | none => rw [hm]
          | some li => rw [hm]

/-- Witness for C6: two identical uniform histograms never meet the
lower-index condition, and the mixed scan indeed fails (here with a
ZeroDivisionError when `false_sum` reaches 0). -/
theorem claim_c6_witness :
    compute_binary_threshold_mixed ⟨0, 1, [1, 1]⟩ ⟨0, 1, [1, 1]⟩ = none :=
  claim_c6 ⟨0, 1, [1, 1]⟩ ⟨0, 1, [1, 1]⟩ (by norm_num) (by norm_num)
    (Or.inl (by
      intro i hi
      have hi2 : i < 2 := by simpa using hi
      interval_cases i <;> with_unfolding_all rfl))

/-- C9: whenever the mixed-threshold mode returns a pair at all, the
returned lower threshold is at most the returned upper threshold, thanks
to the final swap-correction step (lines 160-163). -/
theorem claim_c9 (hT hF : Histo) (l u : ℚ)
    (h : compute_binary_threshold_mixed hT hF = some (l, u)) : l ≤ u := by
  unfold compute_binary_threshold_mixed at h
  by_cases h0 : hT.counts.length = 0
  · rw [if_pos h0] at h
    exact Option.noConfusion h
  · rw [if_neg h0] at h
    by_cases h1 : total hT = 0 ∨ total hF = 0
    · rw [if_pos h1] at h
      exact Option.noConfusion h
    · rw [if_neg h1] at h
      rcases hm : mixedLoop hT hF hT.counts.length 0 0 (total hF) 0 none none
        with _ | ⟨lo, up⟩
      · rw [hm] at h
        exact Option.noConfusion h
      · rw [hm] at h
        rcases lo with _ | li
        · exact Option.noConfusion h
        · rcases up with _ | ui
          · exact Option.noConfusion h
          · simp only at h
            by_cases hcmp : binMid hT li > binMid hT ui
            · rw [if_pos hcmp] at h
              simp only [Option.some.injEq, Prod.mk.injEq] at h
              rw [← h.1, ← h.2]
              exact le_of_lt hcmp
            · rw [if_neg hcmp] at h
              simp only [Option.some.injEq, Prod.mk.injEq] at h
              rw [← h.1, ← h.2]
              exact not_lt.1 hcmp

/-- Witness for C9: a mixed-mode run that returns a pair, with equal
lower and upper thresholds. -/
theorem claim_c9_witness : (1 / 2 : ℚ) ≤ 1 / 2 :=
  claim_c9 ⟨0, 1, [20, 0]⟩ ⟨0, 1, [0, 20]⟩ (1 / 2) (1 / 2) (by with_unfolding_all rfl)

/-- C10: the mixed-mode per-bucket ratios are computed with no
zero-denominator guard: (a) an empty first true bucket makes `true_sum`
zero at the first iteration and line 148 raises ZeroDivisionError; (b) if
the running false mass reaches zero at some bucket while the upper index
is still unset, line 150 raises ZeroDivisionError; in both cases the call
fails instead of returning a result. -/
theorem claim_c10 :
    (∀ hT hF : Histo, hT.counts.length ≠ 0 → hT.counts.getD 0 0 = 0 →
      compute_binary_threshold_mixed hT hF = none) ∧
    (∀ hT hF : Histo, 0 < hT.bucketWidth → 0 < hF.bucketWidth →
      ∀ m, m < hT.counts.length → falseSumSpec hT hF m = 0 →
      (∀ j2 < m, upperCondB hT hF j2 = false) →
      compute_binary_threshold_mixed hT hF = none) := by
  constructor
  · intro hT hF hne h0
    unfold compute_binary_threshold_mixed
    rw [if_neg hne]
    by_cases h1 : total hT = 0 ∨ total hF = 0
    · rw [if_pos h1]
    · rw [if_neg h1]
      obtain ⟨fuel, hfuel⟩ : ∃ fuel, hT.counts.length = fuel + 1 :=
        ⟨hT.counts.length - 1, by omega⟩
      rw [hfuel, mixedLoop]
      have hc : (0 : ℚ) + hT.counts.getD 0 0 = 0 := by rw [h0]; ring
      simp only [hc]
      simp
  · intro hT hF hwT hwF m hm hz hup
    unfold compute_binary_threshold_mixed
    rw [if_neg (by omega : ¬hT.counts.length = 0)]
    by_cases h1 : total hT = 0 ∨ total hF = 0
    · rw [if_pos h1]
    · rw [if_neg h1]
      have halign1 : (hF.counts.drop 0).sum = total hF := by rw [List.drop_zero]; rfl
      have halign2 : (hT.counts.take 0).sum = 0 := by rw [List.take_zero, List.sum_nil]
      have hm2 := mixedLoop_fsum_zero hT hF hwT hwF hT.counts.length 0 0 none (by omega)
        (Nat.zero_le _) (fun j2 hj2 => absurd hj2 (Nat.not_lt_zero j2)) m (Nat.zero_le m)
        hm hz (fun j2 _ hj2 => hup j2 hj2)
      rw [halign1, halign2] at hm2
      rw [hm2]

/-- Witness for C10: part (a) at a true histogram with an empty first
bucket, part (b) at histograms whose false mass is exhausted one bucket
before the scan ends while the upper index is still unset. -/
theorem claim_c10_witness :
    compute_binary_threshold_mixed ⟨0, 1, [0, 1]⟩ ⟨0, 1, [1]⟩ = none ∧
    compute_binary_threshold_mixed ⟨0, 1, [2, 1]⟩ ⟨0, 1, [1, 1]⟩ = none :=
  ⟨claim_c10.1 ⟨0, 1, [0, 1]⟩ ⟨0, 1, [1]⟩ (by simp) rfl,
   claim_c10.2 ⟨0, 1, [2, 1]⟩ ⟨0, 1, [1, 1]⟩ (by norm_num) (by norm_num) 1 (by simp)
     (by with_unfolding_all rfl)
     (by intro j2 hj2; interval_cases j2; with_unfolding_all rfl)⟩

end CMT
